import Mathlib

/-!
Verification development for the money-hunter-pro trading assistant.

The definitions below are a shallow embedding of the TypeScript source:
JavaScript numbers are modelled as exact rationals (ℚ), exchange string
fields are modelled by their parsed numeric values, optional indicator
fields (ema15 / ema60, absent before enrichment) are modelled as Option ℚ,
and JavaScript Set / side-effecting emission is modelled by explicit state
passing (a list of protected keys and a list of emitted actions).
-/

attribute [local semireducible] Rat.mul Rat.inv Rat.add Rat.sub Rat.ofScientific

set_option maxRecDepth 400000

/-- Position side, source values 'long' / 'short'. -/
inductive Side
  | long
  | short
deriving DecidableEq

/-- Trend direction returned by analyze1HTrend: 'UP' / 'DOWN' / 'NEUTRAL'. -/
inductive TrendDir
  | UP
  | DOWN
  | NEUTRAL
deriving DecidableEq

/-- Decision action: 'BUY' | 'SELL' | 'HOLD' | 'CLOSE' | 'UPDATE_TPSL'. -/
inductive Act
  | BUY
  | SELL
  | HOLD
  | CLOSE
  | UPDATE_TPSL
deriving DecidableEq

/-- CandleData from src/types: numeric view of {ts,o,h,l,c,vol} with the
optional enrichment fields ema15 / ema60 (undefined before
enrichCandlesWithEMA runs). -/
structure Candle where
  ts : ℤ
  o : ℚ
  h : ℚ
  l : ℚ
  c : ℚ
  vol : ℚ
  ema15 : Option ℚ := none
  ema60 : Option ℚ := none
deriving DecidableEq

/-- TAKER_FEE_RATE = 0.0005 from src/constants.ts. -/
def TAKER_FEE_RATE : ℚ := 5 / 10000

/-- Loop body of calculateEMA (src/services/okxService.ts):
given the previous EMA value, emit price*k + prev*(1-k) for each
remaining close. -/
def emaGo (k : ℚ) : ℚ → List ℚ → List ℚ
  | _, [] => []
  | prev, p :: ps => (p * k + prev * (1 - k)) :: emaGo k (p * k + prev * (1 - k)) ps

/-- calculateEMA from src/services/okxService.ts (lines 58-70): empty input
gives [], otherwise EMA[0] = close[0] and EMA[i] = close[i]*k + EMA[i-1]*(1-k)
with k = 2/(period+1). -/
def calculateEMA (closes : List ℚ) (period : ℕ) : List ℚ :=
  match closes with
  | [] => []
  | c0 :: rest => c0 :: emaGo (2 / (period + 1 : ℚ)) c0 rest

/-- enrichCandlesWithEMA from src/services/okxService.ts: attach the
period-15 and period-60 EMA series to the candles. -/
def enrichCandlesWithEMA (candles : List Candle) : List Candle :=
  let e15 := calculateEMA (candles.map (·.c)) 15
  let e60 := calculateEMA (candles.map (·.c)) 60
  (candles.zip (e15.zip e60)).map fun pr =>
    { pr.1 with ema15 := some pr.2.1, ema60 := some pr.2.2 }

theorem emaGo_length (k : ℚ) (prev : ℚ) (l : List ℚ) :
    (emaGo k prev l).length = l.length := by
  induction l generalizing prev with
  | nil => rfl
  | cons p ps ih => simp [emaGo, ih]

theorem calculateEMA_length (closes : List ℚ) (period : ℕ) :
    (calculateEMA closes period).length = closes.length := by
  cases closes with
  | nil => rfl
  | cons c0 rest => simp [calculateEMA, emaGo_length]

theorem emaGo_getD (k : ℚ) :
    ∀ (l : List ℚ) (prev : ℚ) (i : ℕ), i < l.length →
      (emaGo k prev l).getD i 0 =
        l.getD i 0 * k + ((prev :: emaGo k prev l).getD i 0) * (1 - k) := by
  intro l
  induction l with
  | nil => intro prev i h; simp at h
  | cons p ps ih =>
    intro prev i h
    cases i with
    | zero => simp [emaGo]
    | succ j =>
      have hj : j < ps.length := by simpa using h
      simpa [emaGo] using ih (p * k + prev * (1 - k)) j hj

theorem emaGo_const (k v : ℚ) (n : ℕ) :
    emaGo k v (List.replicate n v) = List.replicate n v := by
  induction n with
  | zero => rfl
  | succ m ih =>
    have hv : v * k + v * (1 - k) = v := by ring
    simp [List.replicate, emaGo, hv, ih]

/-- C9: the Indicator Engine computes an EMA sequence of the input's
length, with EMA[0] = close[0], the recurrence
EMA[i+1] = close[i+1]*k + EMA[i]*(1-k) for k = 2/(period+1), and a
constant input series is reproduced unchanged. -/
theorem ema_engine_spec (closes : List ℚ) (period : ℕ) :
    (calculateEMA closes period).length = closes.length
    ∧ (∀ c0 rest, closes = c0 :: rest → (calculateEMA closes period).getD 0 0 = c0)
    ∧ (∀ i : ℕ, i + 1 < closes.length →
        (calculateEMA closes period).getD (i + 1) 0 =
          closes.getD (i + 1) 0 * (2 / (period + 1 : ℚ))
            + (calculateEMA closes period).getD i 0 * (1 - 2 / (period + 1 : ℚ)))
    ∧ (∀ v : ℚ, ∀ n : ℕ,
        calculateEMA (List.replicate n v) period = List.replicate n v) := by
  refine ⟨calculateEMA_length closes period, ?_, ?_, ?_⟩
  · intro c0 rest h
    subst h
    simp [calculateEMA]
  · intro i h
    match closes, h with
    | c0 :: rest, h =>
      have hi : i < rest.length := by simpa using h
      simpa [calculateEMA] using emaGo_getD (2 / (period + 1 : ℚ)) rest c0 i hi
  · intro v n
    cases n with
    | zero => rfl
    | succ m => simp [calculateEMA, List.replicate, emaGo_const]

/-- C9 witness: the constant series [100,100,100,100] with period 15 yields
the EMA sequence [100,100,100,100]. -/
theorem ema_engine_spec_witness :
    calculateEMA [100, 100, 100, 100] 15 = [100, 100, 100, 100] := by
  have h := (ema_engine_spec [100, 100, 100, 100] 15).2.2.2 100 4
  simpa using h

/-- JavaScript falsiness of an optional numeric field: undefined and 0 are
falsy (the source tests `!latest.ema15`). -/
def optFalsy (o : Option ℚ) : Bool :=
  match o with
  | none => true
  | some x => x = 0

/-- JavaScript `>` on possibly-undefined numbers: any comparison involving
undefined is false. -/
def jsGT (a b : Option ℚ) : Bool :=
  match a, b with
  | some x, some y => y < x
  | _, _ => false

/-- analyze1HTrend from src/unnamed/part_001 (lines 56-64): NEUTRAL when
fewer than 60 bars or the latest EMAs are falsy; UP when price > ema60 and
ema15 > ema60; DOWN in the mirrored case; else NEUTRAL. -/
def analyze1HTrend_p1 (candles : List Candle) : TrendDir :=
  if candles.length < 60 then .NEUTRAL
  else
    match candles.getLast? with
    | none => .NEUTRAL
    | some latest =>
      if optFalsy latest.ema15 ∨ optFalsy latest.ema60 then .NEUTRAL
      else
        if jsGT (some latest.c) latest.ema60 ∧ jsGT latest.ema15 latest.ema60 then .UP
        else if jsGT latest.ema60 (some latest.c) ∧ jsGT latest.ema60 latest.ema15 then .DOWN
        else .NEUTRAL

/-- Result record of analyze3mEntry: {signal, action, sl}. -/
structure EntrySig where
  signal : Bool
  action : Act
  sl : ℚ
deriving DecidableEq

/-- analyze3mEntry from src/unnamed/part_001 (lines 66-77): no signal on an
empty series or falsy ema15; otherwise the cross state is ema15 > ema60 and
the hard stop is price*(1 - slRoi/lev) when the trend is UP, else
price*(1 + slRoi/lev); BUY fires on UP plus bullish cross, SELL on DOWN
plus bearish cross. -/
def analyze3mEntry_p1 (candles : List Candle) (trend : TrendDir)
    (price lev slRoi : ℚ) : EntrySig :=
  if candles.length = 0 then ⟨false, .HOLD, 0⟩
  else
    match candles.getLast? with
    | none => ⟨false, .HOLD, 0⟩
    | some curr =>
      if optFalsy curr.ema15 then ⟨false, .HOLD, 0⟩
      else
        let isGold := jsGT curr.ema15 curr.ema60
        let hardSL := if trend = .UP then price * (1 - slRoi / lev)
                      else price * (1 + slRoi / lev)
        if trend = .UP ∧ isGold then ⟨true, .BUY, hardSL⟩
        else if trend = .DOWN ∧ ¬ isGold then ⟨true, .SELL, hardSL⟩
        else ⟨false, .HOLD, 0⟩

/-- C6: whenever the entry analyzer fires, the hard stop is the current
price adjusted by initialStopLossRoi/leverage in the adverse direction:
a BUY signal forces an UP trend with stop price*(1 - slRoi/lev), a SELL
signal forces a DOWN trend with stop price*(1 + slRoi/lev). -/
theorem entry_hard_stop_spec (candles : List Candle) (trend : TrendDir)
    (price lev slRoi : ℚ)
    (hsig : (analyze3mEntry_p1 candles trend price lev slRoi).signal = true) :
    ((analyze3mEntry_p1 candles trend price lev slRoi).action = .BUY →
      trend = .UP ∧
        (analyze3mEntry_p1 candles trend price lev slRoi).sl = price * (1 - slRoi / lev))
    ∧ ((analyze3mEntry_p1 candles trend price lev slRoi).action = .SELL →
      trend = .DOWN ∧
        (analyze3mEntry_p1 candles trend price lev slRoi).sl = price * (1 + slRoi / lev)) := by
  clear hsig
  simp only [analyze3mEntry_p1]
  split
  · simp
  · split
    · simp
    · split
      · simp
      · split
        · rename_i hup
          refine ⟨fun _ => ⟨hup.1, ?_⟩, fun hact => absurd hact (by simp)⟩
          simp [hup.1]
        · split
          · rename_i hup hdn
            have htr : ¬ trend = TrendDir.UP := by
              intro h
              rw [hdn.1] at h
              exact TrendDir.noConfusion h
            refine ⟨fun hact => absurd hact (by simp), fun _ => ⟨hdn.1, ?_⟩⟩
            simp [htr]
          · simp

/-- Demonstration 3m candles with a bullish EMA cross on the latest bar. -/
def demoEntryCandles : List Candle :=
  [ { ts := 0, o := 100, h := 100, l := 100, c := 100, vol := 1,
      ema15 := some 100, ema60 := some 100 },
    { ts := 1, o := 100, h := 100, l := 100, c := 100, vol := 1,
      ema15 := some 2, ema60 := some 1 } ]

/-- C6 witness: trend UP, bullish cross, leverage 20, initialStopLossRoi
0.1 give stop price = price*(1 - 0.005) at price 100. -/
theorem entry_hard_stop_spec_witness :
    (analyze3mEntry_p1 demoEntryCandles .UP 100 20 (1/10)).sl = 100 * (1 - 5 / 1000) := by
  have h := (entry_hard_stop_spec demoEntryCandles .UP 100 20 (1/10)
      (by decide)).1 (by decide)
  rw [h.2]
  norm_num

/-- C8: the trend stage always returns one of UP/DOWN/NEUTRAL; it returns
NEUTRAL whenever the series has fewer than the minimum bar count (60 in
this variant) or the latest EMAs are missing (falsy); with enough bars and
EMAs present it returns UP exactly when price > slowEMA and
fastEMA > slowEMA, DOWN exactly in the mirrored case, and NEUTRAL
otherwise. -/
theorem trend_stage_spec (candles : List Candle) :
    (analyze1HTrend_p1 candles = .UP ∨ analyze1HTrend_p1 candles = .DOWN
      ∨ analyze1HTrend_p1 candles = .NEUTRAL)
    ∧ (candles.length < 60 → analyze1HTrend_p1 candles = .NEUTRAL)
    ∧ (∀ latest, candles.getLast? = some latest →
        (optFalsy latest.ema15 ∨ optFalsy latest.ema60) →
        analyze1HTrend_p1 candles = .NEUTRAL)
    ∧ (∀ latest a b, 60 ≤ candles.length → candles.getLast? = some latest →
        latest.ema15 = some a → latest.ema60 = some b → a ≠ 0 → b ≠ 0 →
        (analyze1HTrend_p1 candles = .UP ↔ (b < latest.c ∧ b < a))
        ∧ (analyze1HTrend_p1 candles = .DOWN ↔ (latest.c < b ∧ a < b))
        ∧ (¬ (b < latest.c ∧ b < a) → ¬ (latest.c < b ∧ a < b) →
            analyze1HTrend_p1 candles = .NEUTRAL)) := by
  refine ⟨?_, ?_, ?_, ?_⟩
  · cases h : analyze1HTrend_p1 candles
    · exact Or.inl rfl
    · exact Or.inr (Or.inl rfl)
    · exact Or.inr (Or.inr rfl)
  · intro h
    simp only [analyze1HTrend_p1]
    rw [if_pos h]
  · intro latest hlast hfalsy
    simp only [analyze1HTrend_p1]
    split
    · rfl
    · rw [hlast]
      simp only [if_pos hfalsy]
  · intro latest a b hlen hlast h15 h60 ha hb
    have hlt : ¬ candles.length < 60 := by omega
    simp only [analyze1HTrend_p1]
    rw [if_neg hlt, hlast]
    simp only [jsGT, h15, h60, optFalsy]
    rw [if_neg (by simp [ha, hb])]
    simp only [decide_eq_true_eq]
    by_cases hup : b < latest.c ∧ b < a
    · have h1 : ¬ latest.c < b := not_lt.2 (le_of_lt hup.1)
      simp [hup, h1]
    · by_cases hdn : latest.c < b ∧ a < b
      · have h1 : ¬ b < latest.c := not_lt.2 (le_of_lt hdn.1)
        simp [hup, hdn, h1]
      · simp [hup, hdn]

/-- Helper building a flat candle at time t with all prices x. -/
def mkCandle (t : ℤ) (x : ℚ) : Candle :=
  { ts := t, o := x, h := x, l := x, c := x, vol := 1 }

/-- Sixty higher-timeframe candles, flat at 100 then a final bar at 200,
enriched with EMAs by the Indicator Engine. -/
def demoTrendCandles : List Candle :=
  enrichCandlesWithEMA (List.replicate 59 (mkCandle 0 100) ++ [mkCandle 59 200])

/-- C8 witness: an empty series is NEUTRAL (fewer than 60 bars), and the
concrete 60-bar rising series is classified UP via the price/EMA
conditions. -/
theorem trend_stage_spec_witness :
    analyze1HTrend_p1 [] = .NEUTRAL ∧ analyze1HTrend_p1 demoTrendCandles = .UP := by
  constructor
  · exact (trend_stage_spec []).2.1 (by decide)
  · have h := (trend_stage_spec demoTrendCandles).2.2.2
      { ts := 59, o := 200, h := 200, l := 200, c := 200, vol := 1,
        ema15 := some (225/2), ema60 := some (6300/61) }
      (225/2) (6300/61)
      (by decide) (by decide)
      (by decide) (by decide)
      (by decide) (by decide)
    exact h.1.mpr (by decide)

/-- Position sizing from src/server.ts runTradingLoop (lines 113-116):
targetMargin = equity*initialRisk, marginPerContract = ctVal*price/leverage,
contracts = Math.floor(targetMargin / marginPerContract). -/
def computeContracts (equity risk ctVal price lev : ℚ) : ℤ :=
  ⌊(equity * risk) / ((ctVal * price) / lev)⌋

/-- C7: for positive inputs the contract count is a non-negative integer,
monotonically non-decreasing in equity and non-increasing in price (all
other inputs fixed). -/
theorem position_sizer_spec (equity equity2 risk ctVal price price2 lev : ℚ)
    (he : 0 < equity) (hr : 0 < risk) (hc : 0 < ctVal) (hp : 0 < price)
    (hp2 : 0 < price2) (hl : 0 < lev) :
    0 ≤ computeContracts equity risk ctVal price lev
    ∧ (equity ≤ equity2 →
        computeContracts equity risk ctVal price lev
          ≤ computeContracts equity2 risk ctVal price lev)
    ∧ (price ≤ price2 →
        computeContracts equity risk ctVal price2 lev
          ≤ computeContracts equity risk ctVal price lev) := by
  have hd : 0 < (ctVal * price) / lev := div_pos (mul_pos hc hp) hl
  have hd2 : 0 < (ctVal * price2) / lev := div_pos (mul_pos hc hp2) hl
  refine ⟨?_, ?_, ?_⟩
  · exact Int.floor_nonneg.mpr (le_of_lt (div_pos (mul_pos he hr) hd))
  · intro h
    apply Int.floor_le_floor
    apply div_le_div_of_nonneg_right _ hd.le
    exact mul_le_mul_of_nonneg_right h (le_of_lt hr)
  · intro h
    apply Int.floor_le_floor
    apply div_le_div_of_nonneg_left (le_of_lt (mul_pos he hr)) hd
    apply div_le_div_of_nonneg_right _ hl.le
    exact mul_le_mul_of_nonneg_left h (le_of_lt hc)

/-- C7 witness: concrete positive inputs give a non-negative count that
grows with equity and shrinks with price. -/
theorem position_sizer_spec_witness :
    0 ≤ computeContracts 1000 (15/100) 1 120 20
    ∧ computeContracts 1000 (15/100) 1 120 20
        ≤ computeContracts 2000 (15/100) 1 120 20
    ∧ computeContracts 1000 (15/100) 1 150 20
        ≤ computeContracts 1000 (15/100) 1 120 20 := by
  have h := position_sizer_spec 1000 2000 (15/100) 1 120 150 20
    (by norm_num) (by norm_num) (by norm_num) (by norm_num) (by norm_num) (by norm_num)
  exact ⟨h.1, h.2.1 (by norm_num), h.2.2 (by norm_num)⟩

/-- Per-position fields of the account snapshot consumed by the decision
logic (PositionData: posSide, pos, avgPx, uplRatio). -/
structure PosView where
  side : Side
  pos : ℚ
  avgPx : ℚ
  uplRat : ℚ
deriving DecidableEq

/-- StrategyProfile fields used by the core logic. -/
structure Strat where
  leverage : ℚ
  initialRisk : ℚ
  beTriggerRoi : ℚ
  initialStopLossRoi : ℚ
deriving DecidableEq

/-- analyze1HTrend from src/services/aiService.ts (lines 64-72): the live
variant, requiring at least 100 bars, with strict UP/DOWN conditions. -/
def analyze1HTrend_live (candles : List Candle) : TrendDir :=
  if candles.length < 100 then .NEUTRAL
  else
    match candles.getLast? with
    | none => .NEUTRAL
    | some latest =>
      if optFalsy latest.ema15 ∨ optFalsy latest.ema60 then .NEUTRAL
      else
        if jsGT (some latest.c) latest.ema60 ∧ jsGT latest.ema15 latest.ema60 then .UP
        else if jsGT latest.ema60 (some latest.c) ∧ jsGT latest.ema60 latest.ema15 then .DOWN
        else .NEUTRAL

/-- analyze3mEntry from src/services/aiService.ts (lines 74-88): the live
variant with the stop-loss ROI hardcoded to 0.1. -/
def analyze3mEntry_live (candles : List Candle) (trend : TrendDir)
    (price lev : ℚ) : EntrySig :=
  match candles.getLast? with
  | none => ⟨false, .HOLD, 0⟩
  | some curr =>
    if optFalsy curr.ema15 then ⟨false, .HOLD, 0⟩
    else
      let isGold := jsGT curr.ema15 curr.ema60
      let hardSL := if trend = .UP then price * (1 - (1/10) / lev)
                    else price * (1 + (1/10) / lev)
      if trend = .UP ∧ isGold then ⟨true, .BUY, hardSL⟩
      else if trend = .DOWN ∧ ¬ isGold then ⟨true, .SELL, hardSL⟩
      else ⟨false, .HOLD, 0⟩

/-- Trend reversal against an open position: long in a DOWN trend or short
in an UP trend. -/
def reversalAgainst : Side → TrendDir → Bool
  | Side.long, TrendDir.DOWN => true
  | Side.short, TrendDir.UP => true
  | _, _ => false

/-- Decision core of analyzeCoin from src/services/aiService.ts (lines
90-157): with an open position (pos > 0), the breakeven condition
(netRoi >= beTriggerRoi) first sets UPDATE_TPSL with the stop pinned at
avgPx, and the trend-reversal check runs afterwards, overwriting the
action with CLOSE; without a position an entry signal is passed through.
Returns (action, stop_loss). -/
def analyzeCoinLive (c1H c3m : List Candle) (price : ℚ) (pos : Option PosView)
    (strat : Strat) : Act × ℚ :=
  let trend := analyze1HTrend_live c1H
  let entry := analyze3mEntry_live c3m trend price strat.leverage
  match pos with
  | some p =>
    if 0 < p.pos then
      let netRoi := p.uplRat - TAKER_FEE_RATE * 2
      let base : Act × ℚ :=
        if strat.beTriggerRoi ≤ netRoi then (.UPDATE_TPSL, p.avgPx) else (.HOLD, entry.sl)
      if reversalAgainst p.side trend then (.CLOSE, base.2) else base
    else
      if entry.signal then (entry.action, entry.sl) else (.HOLD, entry.sl)
  | none => if entry.signal then (entry.action, entry.sl) else (.HOLD, entry.sl)

/-- C10: with an open position, when the breakeven condition and the
trend-reversal condition hold on the same evaluation, the rule-based
decision is CLOSE, not UPDATE_TPSL: the reversal check is evaluated last
and overrides the breakeven action. -/
theorem reversal_overrides_breakeven (c1H c3m : List Candle) (price : ℚ)
    (p : PosView) (strat : Strat)
    (hpos : 0 < p.pos)
    (hroi : strat.beTriggerRoi ≤ p.uplRat - TAKER_FEE_RATE * 2)
    (hrev : reversalAgainst p.side (analyze1HTrend_live c1H) = true) :
    (analyzeCoinLive c1H c3m price (some p) strat).1 = .CLOSE := by
  simp only [analyzeCoinLive]
  rw [if_pos hpos, if_pos hrev]

/-- One hundred higher-timeframe candles flat at 100 with a final drop to 50,
classified as a DOWN trend by the live analyzer. -/
def demoDownCandles : List Candle :=
  enrichCandlesWithEMA (List.replicate 99 (mkCandle 0 100) ++ [mkCandle 99 50])

/-- C10 witness: a profitable long position in a DOWN trend produces CLOSE
even though the breakeven threshold is exceeded. -/
theorem reversal_overrides_breakeven_witness :
    (analyzeCoinLive demoDownCandles [] 50
      (some { side := Side.long, pos := 1, avgPx := 100, uplRat := 1 })
      { leverage := 20, initialRisk := 15/100, beTriggerRoi := 78/1000,
        initialStopLossRoi := 1/10 }).1 = .CLOSE := by
  exact reversal_overrides_breakeven demoDownCandles [] 50
    { side := Side.long, pos := 1, avgPx := 100, uplRat := 1 }
    { leverage := 20, initialRisk := 15/100, beTriggerRoi := 78/1000,
      initialStopLossRoi := 1/10 }
    (by norm_num) (by norm_num [TAKER_FEE_RATE]) (by decide)

/-- Per-position account fields consumed by the breakeven sweep in
src/server.ts runTradingLoop. -/
structure SweepPos where
  instId : String
  posSide : Side
  uplRat : ℚ
  avgPx : ℚ
deriving DecidableEq

/-- Registry key: the source builds the string posId = instId + "-" +
posSide; (instId, posSide) pairs model those strings one-to-one. -/
abbrev PosKey := String × Side

/-- Key of a swept position. -/
def posKey (p : SweepPos) : PosKey := (p.instId, p.posSide)

/-- Protect price pinned near the entry price: avgPx*1.0005 for a long,
avgPx*0.9995 for a short (src/server.ts lines 63-65). -/
def protectPrice (p : SweepPos) : ℚ :=
  if p.posSide = Side.long then p.avgPx * (10005/10000) else p.avgPx * (9995/10000)

/-- Net ROI of a position: uplRatio - TAKER_FEE_RATE*2 (src/server.ts
line 61). -/
def sweepNetRoi (p : SweepPos) : ℚ := p.uplRat - TAKER_FEE_RATE * 2

/-- One tick of the breakeven-protection sweep (src/server.ts lines 59-75):
for each position in order, if netRoi >= beTriggerRoi and the key is not in
the protected set, emit the stop-move action (key, protectPrice) and add
the key to the set; otherwise skip. Returns (emitted actions, new set). -/
def sweepTick (trig : ℚ) : List SweepPos → List PosKey → List (PosKey × ℚ) × List PosKey
  | [], prot => ([], prot)
  | p :: ps, prot =>
    if trig ≤ sweepNetRoi p ∧ ¬ posKey p ∈ prot then
      let rest := sweepTick trig ps (posKey p :: prot)
      ((posKey p, protectPrice p) :: rest.1, rest.2)
    else sweepTick trig ps prot

/-- A sequence of sweep ticks threading the protected set (the registry is
cleared only by config update / stop, outside this run). -/
def sweepRun (trig : ℚ) : List (List SweepPos) → List PosKey → List (PosKey × ℚ) × List PosKey
  | [], prot => ([], prot)
  | t :: ts, prot =>
    let r := sweepTick trig t prot
    let rr := sweepRun trig ts r.2
    (r.1 ++ rr.1, rr.2)

/-- Number of emitted breakeven actions for a given key. -/
def emitCount (k : PosKey) (acts : List (PosKey × ℚ)) : ℕ :=
  (acts.filter (fun a => a.1 = k)).length

theorem emitCount_nil (k : PosKey) : emitCount k [] = 0 := rfl

theorem emitCount_cons (k : PosKey) (x : PosKey × ℚ) (l : List (PosKey × ℚ)) :
    emitCount k (x :: l) = (if x.1 = k then 1 else 0) + emitCount k l := by
  by_cases h : x.1 = k <;> simp [emitCount, List.filter_cons, h, Nat.add_comm]

theorem emitCount_append (k : PosKey) (l1 l2 : List (PosKey × ℚ)) :
    emitCount k (l1 ++ l2) = emitCount k l1 + emitCount k l2 := by
  simp [emitCount, List.filter_append]

theorem sweepTick_mem_mono (trig : ℚ) (k : PosKey) :
    ∀ (ps : List SweepPos) (prot : List PosKey), k ∈ prot →
      k ∈ (sweepTick trig ps prot).2 := by
  intro ps
  induction ps with
  | nil => intro prot h; exact h
  | cons p ps ih =>
    intro prot h
    simp only [sweepTick]
    split
    · exact ih _ (List.mem_cons_of_mem _ h)
    · exact ih _ h

theorem sweepTick_emit_zero (trig : ℚ) (k : PosKey) :
    ∀ (ps : List SweepPos) (prot : List PosKey), k ∈ prot →
      emitCount k (sweepTick trig ps prot).1 = 0 := by
  intro ps
  induction ps with
  | nil => intro prot _; rfl
  | cons p ps ih =>
    intro prot h
    simp only [sweepTick]
    split
    · rename_i hc
      have hne : ¬ ((posKey p, protectPrice p) : PosKey × ℚ).1 = k := by
        intro he
        apply hc.2
        have hpk : posKey p = k := he
        rw [hpk]
        exact h
      rw [emitCount_cons, if_neg hne]
      simpa using ih (posKey p :: prot) (List.mem_cons_of_mem _ h)
    · exact ih prot h

theorem sweepTick_emit_le_one (trig : ℚ) (k : PosKey) :
    ∀ (ps : List SweepPos) (prot : List PosKey), ¬ k ∈ prot →
      emitCount k (sweepTick trig ps prot).1 ≤ 1
      ∧ (1 ≤ emitCount k (sweepTick trig ps prot).1 →
          k ∈ (sweepTick trig ps prot).2) := by
  intro ps
  induction ps with
  | nil =>
    intro prot _
    exact ⟨Nat.zero_le 1, fun h1 => absurd h1 (by simp [sweepTick, emitCount_nil])⟩
  | cons p ps ih =>
    intro prot hk
    simp only [sweepTick]
    split
    · rename_i hc
      by_cases hpk : posKey p = k
      · have hmem : k ∈ posKey p :: prot := by
          rw [hpk]
          exact List.mem_cons_self _ _
        have hz := sweepTick_emit_zero trig k ps (posKey p :: prot) hmem
        have hm := sweepTick_mem_mono trig k ps (posKey p :: prot) hmem
        constructor
        · rw [emitCount_cons, if_pos hpk, hz]
        · intro _
          exact hm
      · have hk2 : ¬ k ∈ posKey p :: prot := by
          intro hmem
          rcases List.mem_cons.mp hmem with h | h
          · exact hpk h.symm
          · exact hk h
        have hrec := ih (posKey p :: prot) hk2
        constructor
        · rw [emitCount_cons, if_neg hpk]
          simpa using hrec.1
        · intro h1
          rw [emitCount_cons, if_neg hpk] at h1
          exact hrec.2 (by simpa using h1)
    · exact ih prot hk

theorem sweepRun_emit_bound (trig : ℚ) (k : PosKey) :
    ∀ (ticks : List (List SweepPos)) (prot : List PosKey),
      emitCount k (sweepRun trig ticks prot).1 ≤ (if k ∈ prot then 0 else 1) := by
  intro ticks
  induction ticks with
  | nil =>
    intro prot
    simp only [sweepRun, emitCount_nil]
    exact Nat.zero_le _
  | cons t ts ih =>
    intro prot
    simp only [sweepRun]
    rw [emitCount_append]
    by_cases hk : k ∈ prot
    · have h1 := sweepTick_emit_zero trig k t prot hk
      have hm := sweepTick_mem_mono trig k t prot hk
      have h2 := ih (sweepTick trig t prot).2
      rw [if_pos hm] at h2
      rw [if_pos hk, h1]
      omega
    · have ht := sweepTick_emit_le_one trig k t prot hk
      have h2 := ih (sweepTick trig t prot).2
      rw [if_neg hk]
      by_cases h1 : 1 ≤ emitCount k (sweepTick trig t prot).1
      · rw [if_pos (ht.2 h1)] at h2
        have := ht.1
        omega
      · have hz : emitCount k (sweepTick trig t prot).1 = 0 := by omega
        have hle : emitCount k (sweepRun trig ts (sweepTick trig t prot).2).1 ≤ 1 := by
          refine le_trans h2 ?_
          split <;> omega
        omega

theorem sweepTick_fires (trig : ℚ) :
    ∀ (ps : List SweepPos) (prot : List PosKey) (p : SweepPos),
      p ∈ ps → (ps.map posKey).Nodup → ¬ posKey p ∈ prot → trig ≤ sweepNetRoi p →
      (posKey p, protectPrice p) ∈ (sweepTick trig ps prot).1
      ∧ posKey p ∈ (sweepTick trig ps prot).2 := by
  intro ps
  induction ps with
  | nil =>
    intro prot p hp
    simp at hp
  | cons q qs ih =>
    intro prot p hp hnd hk hroi
    have hnd' : (posKey q :: qs.map posKey).Nodup := by simpa using hnd
    rcases List.mem_cons.mp hp with rfl | hmem
    · simp only [sweepTick]
      rw [if_pos ⟨hroi, hk⟩]
      refine ⟨List.mem_cons_self _ _, ?_⟩
      exact sweepTick_mem_mono trig _ qs _ (List.mem_cons_self _ _)
    · have hnd2 : (qs.map posKey).Nodup := (List.nodup_cons.mp hnd').2
      have hqk : posKey q ≠ posKey p := by
        intro he
        exact (List.nodup_cons.mp hnd').1 (he ▸ List.mem_map_of_mem posKey hmem)
      simp only [sweepTick]
      split
      · have hk2 : ¬ posKey p ∈ posKey q :: prot := by
          intro hm
          rcases List.mem_cons.mp hm with h | h
          · exact hqk h.symm
          · exact hk h
        have hrec := ih (posKey q :: prot) p hmem hnd2 hk2 hroi
        exact ⟨List.mem_cons_of_mem _ hrec.1, hrec.2⟩
      · exact ih prot p hmem hnd2 hk hroi

/-- C1: across any sequence of sweep ticks, the breakeven action for a
fixed position key is emitted at most once overall and never while the
registry already holds the key; on a tick where the key's position reaches
net ROI >= the trigger with the key absent, the action pinning the stop
near the entry price is emitted and the key is added to the registry. -/
theorem breakeven_at_most_once (trig : ℚ) (ticks : List (List SweepPos))
    (prot : List PosKey) (k : PosKey) :
    emitCount k (sweepRun trig ticks prot).1 ≤ 1
    ∧ (k ∈ prot → emitCount k (sweepRun trig ticks prot).1 = 0)
    ∧ (∀ ps p, p ∈ ps → (ps.map posKey).Nodup → ¬ posKey p ∈ prot →
        trig ≤ sweepNetRoi p →
        (posKey p, protectPrice p) ∈ (sweepTick trig ps prot).1
        ∧ posKey p ∈ (sweepTick trig ps prot).2)
    ∧ (∀ ps, k ∈ prot → emitCount k (sweepTick trig ps prot).1 = 0) := by
  refine ⟨?_, ?_, ?_, ?_⟩
  · have h := sweepRun_emit_bound trig k ticks prot
    refine le_trans h ?_
    split <;> omega
  · intro hk
    have h := sweepRun_emit_bound trig k ticks prot
    rw [if_pos hk] at h
    omega
  · intro ps p hp hnd hk hroi
    exact sweepTick_fires trig ps prot p hp hnd hk hroi
  · intro ps hk
    exact sweepTick_emit_zero trig k ps prot hk

/-- C1 witness: a single profitable position swept over two ticks emits
exactly one breakeven action, pinned at avgPx*1.0005, and the second tick
emits nothing. -/
theorem breakeven_at_most_once_witness :
    emitCount ("BTC-USDT-SWAP", Side.long)
        (sweepRun (78/1000)
          [[{ instId := "BTC-USDT-SWAP", posSide := Side.long, uplRat := 1, avgPx := 100 }],
           [{ instId := "BTC-USDT-SWAP", posSide := Side.long, uplRat := 1, avgPx := 100 }]]
          []).1 ≤ 1
    ∧ (("BTC-USDT-SWAP", Side.long), (100 : ℚ) * (10005/10000)) ∈
        (sweepTick (78/1000)
          [{ instId := "BTC-USDT-SWAP", posSide := Side.long, uplRat := 1, avgPx := 100 }]
          []).1 := by
  have h := breakeven_at_most_once (78/1000)
    [[{ instId := "BTC-USDT-SWAP", posSide := Side.long, uplRat := 1, avgPx := 100 }],
     [{ instId := "BTC-USDT-SWAP", posSide := Side.long, uplRat := 1, avgPx := 100 }]]
    [] ("BTC-USDT-SWAP", Side.long)
  refine ⟨h.1, ?_⟩
  have h2 := h.2.2.1
    [{ instId := "BTC-USDT-SWAP", posSide := Side.long, uplRat := 1, avgPx := 100 }]
    { instId := "BTC-USDT-SWAP", posSide := Side.long, uplRat := 1, avgPx := 100 }
    (by decide) (by decide) (by decide) (by norm_num [sweepNetRoi, TAKER_FEE_RATE])
  have hpp : protectPrice
      { instId := "BTC-USDT-SWAP", posSide := Side.long, uplRat := 1, avgPx := 100 } =
      (100 : ℚ) * (10005/10000) := by
    simp [protectPrice]
  rw [hpp] at h2
  exact h2.1

/-- Round half-up to p decimal places: models
parseFloat(x.toFixed(sizePrecision)) for the values arising in the
allocator (JavaScript toFixed picks the larger candidate on ties). -/
def roundTo (p : ℕ) (x : ℚ) : ℚ := (⌊x * 10 ^ p + 1/2⌋ : ℤ) / 10 ^ p

/-- x is already at lot precision: x*10^p is an integer. -/
def atPrec (p : ℕ) (x : ℚ) : Prop := ∃ z : ℤ, x * 10 ^ p = z

/-- Pre-rounding leg size of one calculateGreedySize step
(src/unnamed/part_000 lines 263-270): 0 when nothing remains, otherwise
max(size*pct, minSz) capped at the remainder. -/
def gRaw (size minSz st pct : ℚ) : ℚ :=
  if st ≤ 0 then 0 else min (max (size * pct) minSz) st

/-- One calculateGreedySize step: emitted leg and new remainder, both
rounded half-up to the lot precision; when the remainder is exhausted the
step returns 0 and leaves the remainder untouched. -/
def gstep (size minSz : ℚ) (p : ℕ) (st pct : ℚ) : ℚ × ℚ :=
  if st ≤ 0 then (0, st)
  else (roundTo p (gRaw size minSz st pct), roundTo p (st - gRaw size minSz st pct))

/-- The four exit legs of placeAlgoStrategy. -/
structure Legs where
  s1 : ℚ
  s2 : ℚ
  s3 : ℚ
  s4 : ℚ
deriving DecidableEq

/-- Total of the four legs. -/
def legSum (l : Legs) : ℚ := l.s1 + l.s2 + l.s3 + l.s4

/-- Remainder after the first greedy step (tier fraction 0.30). -/
def allocSt1 (size minSz : ℚ) (p : ℕ) : ℚ := (gstep size minSz p size (3/10)).2

/-- Remainder after the second greedy step (tier fraction 0.30). -/
def allocSt2 (size minSz : ℚ) (p : ℕ) : ℚ :=
  (gstep size minSz p (allocSt1 size minSz p) (3/10)).2

/-- Remainder after the third greedy step (tier fraction 0.20). -/
def allocSt3 (size minSz : ℚ) (p : ℕ) : ℚ :=
  (gstep size minSz p (allocSt2 size minSz p) (1/5)).2

/-- Leg sizes of placeAlgoStrategy (src/unnamed/part_000 lines 262-275):
s1 = greedy(0.30), s2 = greedy(0.30), s3 = greedy(0.20), s4 = rounded
remainder (submitted as the trailing leg). -/
def allocLegs (size minSz : ℚ) (p : ℕ) : Legs :=
  { s1 := (gstep size minSz p size (3/10)).1
    s2 := (gstep size minSz p (allocSt1 size minSz p) (3/10)).1
    s3 := (gstep size minSz p (allocSt2 size minSz p) (1/5)).1
    s4 := roundTo p (allocSt3 size minSz p) }

theorem roundTo_nonneg (p : ℕ) (x : ℚ) (hx : 0 ≤ x) : 0 ≤ roundTo p x := by
  unfold roundTo
  apply div_nonneg _ (by positivity)
  have h : (0 : ℤ) ≤ ⌊x * 10 ^ p + 1/2⌋ := Int.floor_nonneg.mpr (by positivity)
  exact_mod_cast h

theorem roundTo_atPrec (p : ℕ) (x : ℚ) (h : atPrec p x) : roundTo p x = x := by
  obtain ⟨z, hz⟩ := h
  unfold roundTo
  rw [hz]
  have h0 : ⌊(1/2 : ℚ)⌋ = 0 := by
    rw [Int.floor_eq_zero_iff]
    constructor <;> norm_num
  rw [Int.floor_int_add, h0, add_zero]
  have hp : (10 : ℚ) ^ p ≠ 0 := by positivity
  field_simp
  linarith [hz]

theorem atPrec_sub (p : ℕ) (x y : ℚ) (hx : atPrec p x) (hy : atPrec p y) :
    atPrec p (x - y) := by
  obtain ⟨a, ha⟩ := hx
  obtain ⟨b, hb⟩ := hy
  exact ⟨a - b, by push_cast; rw [sub_mul, ha, hb]⟩

theorem gRaw_nonneg (size minSz st pct : ℚ) (hsz : 0 ≤ size) (hpct : 0 ≤ pct) :
    0 ≤ gRaw size minSz st pct := by
  unfold gRaw
  split
  · exact le_refl 0
  · rename_i h
    exact le_min (le_max_of_le_left (mul_nonneg hsz hpct)) (le_of_lt (lt_of_not_le h))

theorem gRaw_le (size minSz st pct : ℚ) (h : ¬ st ≤ 0) :
    gRaw size minSz st pct ≤ st := by
  unfold gRaw
  rw [if_neg h]
  exact min_le_right _ _

theorem gstep_nonneg (size minSz : ℚ) (p : ℕ) (st pct : ℚ)
    (hsz : 0 ≤ size) (hpct : 0 ≤ pct) (hst : 0 ≤ st) :
    0 ≤ (gstep size minSz p st pct).1 ∧ 0 ≤ (gstep size minSz p st pct).2 := by
  unfold gstep
  split
  · exact ⟨le_refl 0, hst⟩
  · rename_i h
    constructor
    · exact roundTo_nonneg p _ (gRaw_nonneg size minSz st pct hsz hpct)
    · exact roundTo_nonneg p _ (by linarith [gRaw_le size minSz st pct h])

theorem gstep_exact (size minSz : ℚ) (p : ℕ) (st pct : ℚ)
    (h1 : atPrec p st) (h2 : atPrec p (gRaw size minSz st pct)) :
    (gstep size minSz p st pct).1 + (gstep size minSz p st pct).2 = st
    ∧ atPrec p (gstep size minSz p st pct).2 := by
  unfold gstep
  split
  · exact ⟨zero_add st, h1⟩
  · rw [roundTo_atPrec p _ h2, roundTo_atPrec p _ (atPrec_sub p st _ h1 h2)]
    exact ⟨by ring, atPrec_sub p st _ h1 h2⟩

/-- C2 counterexample: for total size 5, tiers [0.3,0.3,0.2], minSize 1 and
lot precision 0, the code emits legs [2,2,1,2] whose sum is 7, not the
original size 5 (which is already at lot precision): toFixed rounds the
half-sized legs and the running remainder up on ties
(5*0.3 = 1.5 -> 2, remainder 3.5 -> 4, 2.5 -> 3). -/
theorem exit_allocator_counterexample :
    allocLegs 5 1 0 = { s1 := 2, s2 := 2, s3 := 1, s4 := 2 }
    ∧ legSum (allocLegs 5 1 0) = 7
    ∧ roundTo 0 5 = 5
    ∧ legSum (allocLegs 5 1 0) ≠ roundTo 0 5 := by
  refine ⟨by decide, by decide, by decide, by decide⟩

/-- C2 amended: every emitted leg is non-negative, and the scenario size
10, tiers [0.3,0.3,0.2], minSize 1, lot precision 0 gives legs [3,3,2,2]
summing to 10; the sum of the four legs equals the original size whenever
the size and each greedy step's pre-rounding leg are already at lot
precision (no rounding occurs), which the half-up rounding otherwise
breaks (size 5 gives sum 7). -/
theorem exit_allocator_amended (size minSz : ℚ) (p : ℕ) (h0 : 0 ≤ size) :
    (0 ≤ (allocLegs size minSz p).s1 ∧ 0 ≤ (allocLegs size minSz p).s2
      ∧ 0 ≤ (allocLegs size minSz p).s3 ∧ 0 ≤ (allocLegs size minSz p).s4)
    ∧ (allocLegs 10 1 0 = { s1 := 3, s2 := 3, s3 := 2, s4 := 2 }
        ∧ legSum (allocLegs 10 1 0) = 10)
    ∧ (atPrec p size →
        atPrec p (gRaw size minSz size (3/10)) →
        atPrec p (gRaw size minSz (allocSt1 size minSz p) (3/10)) →
        atPrec p (gRaw size minSz (allocSt2 size minSz p) (1/5)) →
        legSum (allocLegs size minSz p) = size) := by
  have h30 : (0 : ℚ) ≤ 3/10 := by norm_num
  have h20 : (0 : ℚ) ≤ 1/5 := by norm_num
  have hg1 := gstep_nonneg size minSz p size (3/10) h0 h30 h0
  have hst1 : 0 ≤ allocSt1 size minSz p := hg1.2
  have hg2 := gstep_nonneg size minSz p (allocSt1 size minSz p) (3/10) h0 h30 hst1
  have hst2 : 0 ≤ allocSt2 size minSz p := hg2.2
  have hg3 := gstep_nonneg size minSz p (allocSt2 size minSz p) (1/5) h0 h20 hst2
  have hst3 : 0 ≤ allocSt3 size minSz p := hg3.2
  refine ⟨⟨hg1.1, hg2.1, hg3.1, roundTo_nonneg p _ hst3⟩, ⟨by decide, by decide⟩, ?_⟩
  intro hsz hr1 hr2 hr3
  have he1 := gstep_exact size minSz p size (3/10) hsz hr1
  have he2 := gstep_exact size minSz p (allocSt1 size minSz p) (3/10) he1.2 hr2
  have he3 := gstep_exact size minSz p (allocSt2 size minSz p) (1/5) he2.2 hr3
  have hs4 : roundTo p (allocSt3 size minSz p) = allocSt3 size minSz p :=
    roundTo_atPrec p _ he3.2
  have q1 := he1.1
  have q2 := he2.1
  have q3 := he3.1
  simp only [allocLegs, legSum, hs4]
  rw [show (gstep size minSz p size (3/10)).2 = allocSt1 size minSz p from rfl] at q1
  rw [show (gstep size minSz p (allocSt1 size minSz p) (3/10)).2
      = allocSt2 size minSz p from rfl] at q2
  rw [show (gstep size minSz p (allocSt2 size minSz p) (1/5)).2
      = allocSt3 size minSz p from rfl] at q3
  linarith [q1, q2, q3]

/-- C2 witness for the amended theorem: at size 10 with minSize 1 and lot
precision 0 every greedy leg is exact, the legs are [3,3,2,2] and their sum
reproduces the size. -/
theorem exit_allocator_amended_witness :
    legSum (allocLegs 10 1 0) = 10 := by
  exact (exit_allocator_amended 10 1 0 (by norm_num)).2.2
    ⟨10, by norm_num⟩
    ⟨3, by norm_num [gRaw]⟩
    ⟨3, by norm_num [gRaw, allocSt1, gstep, roundTo]⟩
    ⟨2, by norm_num [gRaw, allocSt1, allocSt2, gstep, roundTo]⟩

/-- Lower-timeframe (3m) fallback of the backtest trend stage (src/unnamed/part_000 lines
490-498): with at least 60 3m bars and a defined ema60, price above/below
the long EMA gives UP/DOWN; otherwise NEUTRAL. -/
def trendFallback3m (c3m : List Candle) : TrendDir :=
  if 60 ≤ c3m.length then
    match c3m.getLast? with
    | some last =>
      match last.ema60 with
      | some e60 =>
        if e60 < last.c then .UP
        else if last.c < e60 then .DOWN
        else .NEUTRAL
      | none => .NEUTRAL
    | none => .NEUTRAL
  else .NEUTRAL

/-- analyze1HTrend from src/unnamed/part_000 (lines 478-501), the variant
invoked by the embedded backtest: the 1H branch needs at least 2 bars and
defined EMAs, returns UP when price > ema60 and ema15 > ema60*0.999, DOWN
when price < ema60 and ema15 < ema60*1.001, and otherwise falls through to
the 3m fallback. -/
def analyze1HTrend_bt (c1H c3m : List Candle) : TrendDir :=
  if 2 ≤ c1H.length then
    match c1H.getLast? with
    | some latest =>
      match latest.ema15, latest.ema60 with
      | some e15, some e60 =>
        if e60 < latest.c ∧ e60 * (999/1000) < e15 then .UP
        else if latest.c < e60 ∧ e15 < e60 * (1001/1000) then .DOWN
        else trendFallback3m c3m
      | _, _ => trendFallback3m c3m
    | none => trendFallback3m c3m
  else trendFallback3m c3m

/-- analyze3mEntry from src/unnamed/part_000 (lines 503-516), backtest
variant: needs at least 2 bars and both EMAs defined. -/
def analyze3mEntry_bt (candles : List Candle) (trend : TrendDir)
    (price lev slRoi : ℚ) : EntrySig :=
  if candles.length < 2 then ⟨false, .HOLD, 0⟩
  else
    match candles.getLast? with
    | none => ⟨false, .HOLD, 0⟩
    | some curr =>
      match curr.ema15, curr.ema60 with
      | some e15, some e60 =>
        let isGold := e60 < e15
        let hardSL := if trend = .UP then price * (1 - slRoi / lev)
                      else price * (1 + slRoi / lev)
        if trend = .UP ∧ isGold then ⟨true, .BUY, hardSL⟩
        else if trend = .DOWN ∧ ¬ isGold then ⟨true, .SELL, hardSL⟩
        else ⟨false, .HOLD, 0⟩
      | _, _ => ⟨false, .HOLD, 0⟩

/-- Decision core of the backtest analyzeCoin (src/unnamed/part_000 lines
518-562, isBacktest = true): with an open position (pos != 0), a trend
reversal gives CLOSE and anything else HOLD; with no position an entry
signal passes through; stop_loss always carries the entry stage's sl.
Returns (action, stop_loss). -/
def analyzeCoinBt (c1H c3m : List Candle) (price : ℚ) (pos : Option PosView)
    (strat : Strat) : Act × ℚ :=
  let trend := analyze1HTrend_bt c1H c3m
  let entry := analyze3mEntry_bt c3m trend price strat.leverage strat.initialStopLossRoi
  match pos with
  | some p =>
    if p.pos ≠ 0 then
      if reversalAgainst p.side trend then (.CLOSE, entry.sl) else (.HOLD, entry.sl)
    else
      if entry.signal then (entry.action, entry.sl) else (.HOLD, entry.sl)
  | none => if entry.signal then (entry.action, entry.sl) else (.HOLD, entry.sl)

/-- One recorded backtest trade: type (BUY/SELL entry or CLOSE), fill
price, contracts, fee paid, and realized net profit (0 on entries, where
the source records no profit). -/
structure BtTrade where
  ttype : Act
  price : ℚ
  contracts : ℤ
  fee : ℚ
  profit : ℚ
deriving DecidableEq

/-- The open simulated position of the embedded backtest (src/constants.ts
line 245): side, contracts, entry price, margin, stop-loss price. -/
structure BtPosition where
  side : Side
  contracts : ℤ
  entryPrice : ℚ
  margin : ℚ
  sl : ℚ
deriving DecidableEq

/-- Simulator state threaded through the candle loop; lastDD is the
drawdown recorded at the most recent step. -/
structure BtState where
  balance : ℚ
  position : Option BtPosition
  trades : List BtTrade
  peak : ℚ
  maxDD : ℚ
  lastDD : ℚ
deriving DecidableEq

/-- Direction multiplier of a position side. -/
def sideSign : Side → ℚ
  | Side.long => 1
  | Side.short => -1

/-- Leveraged P&L at an exit price: (exit-entry)/entry * direction *
margin * leverage. -/
def pnlCalc (p : BtPosition) (exitPx lev : ℚ) : ℚ :=
  (exitPx - p.entryPrice) / p.entryPrice * sideSign p.side * p.margin * lev

/-- Stop-loss / close phase of one backtest step (src/constants.ts lines
282-307): with an open position, a stop touch (low <= sl for a long,
high >= sl for a short) or a CLOSE decision realizes the P&L minus the
exit fee; a touched stop fills at the stop price, otherwise the fill is
the candle close. -/
def btClosePhase (lev : ℚ) (cand : Candle) (a : Act) (st : BtState) : BtState :=
  match st.position with
  | none => st
  | some p =>
    if (p.side = Side.long ∧ cand.l ≤ p.sl) ∨ (p.side = Side.short ∧ p.sl ≤ cand.h)
        ∨ a = Act.CLOSE then
      let exitPx := if (p.side = Side.long ∧ cand.l ≤ p.sl)
          ∨ (p.side = Side.short ∧ p.sl ≤ cand.h) then p.sl else cand.c
      let pnl := pnlCalc p exitPx lev
      let f := p.margin * TAKER_FEE_RATE
      { st with balance := st.balance + (pnl - f)
                position := none
                trades := st.trades ++
                  [{ ttype := Act.CLOSE, price := exitPx, contracts := p.contracts,
                     fee := f, profit := pnl - f }] }
    else st

/-- Entry phase (src/constants.ts lines 309-332): when flat and the
decision is BUY/SELL, margin = balance*initialRisk and contracts =
floor(margin*lev/(ctVal*price)); a positive count debits the entry fee and
arms the stop from the decision, falling back to +-5% of price when the
decision's stop parses to a falsy 0. -/
def btOpenPhase (lev risk ctVal : ℚ) (cand : Candle) (dec : Act × ℚ)
    (st : BtState) : BtState :=
  if st.position = none ∧ (dec.1 = Act.BUY ∨ dec.1 = Act.SELL) then
    let margin := st.balance * risk
    let contracts : ℤ := ⌊(margin * lev) / (ctVal * cand.c)⌋
    if 0 < contracts then
      let slv := if dec.2 = 0 then
          (if dec.1 = Act.BUY then cand.c * (95/100) else cand.c * (105/100))
        else dec.2
      { st with balance := st.balance - margin * TAKER_FEE_RATE
                position := some { side := if dec.1 = Act.BUY then Side.long else Side.short,
                                   contracts := contracts, entryPrice := cand.c,
                                   margin := margin, sl := slv }
                trades := st.trades ++
                  [{ ttype := dec.1, price := cand.c, contracts := contracts,
                     fee := margin * TAKER_FEE_RATE, profit := 0 }] }
    else st
  else st

/-- Mark-to-market equity: cash plus unrealized P&L at the close price. -/
def btMark (lev closePx : ℚ) (st : BtState) : ℚ :=
  st.balance + (match st.position with
    | some p => pnlCalc p closePx lev
    | none => 0)

/-- Equity / drawdown phase (src/constants.ts lines 334-340): peak is the
running max of equity, the step drawdown is (peak-equity)/peak when the
peak is positive and 0 otherwise, and maxDrawdown is its running max. -/
def btEquityPhase (lev : ℚ) (cand : Candle) (st : BtState) : BtState :=
  let eq := btMark lev cand.c st
  let pk := max st.peak eq
  let dd := if 0 < pk then (pk - eq) / pk else 0
  { st with peak := pk, maxDD := max st.maxDD dd, lastDD := dd }

/-- One backtest step: the stop/close check runs first, then the entry
check, then equity tracking. -/
def btStep (lev risk ctVal : ℚ) (cand : Candle) (dec : Act × ℚ)
    (st : BtState) : BtState :=
  btEquityPhase lev cand
    (btOpenPhase lev risk ctVal cand dec (btClosePhase lev cand dec.1 st))

/-- JavaScript slice(-n): the last n elements. -/
def takeLast {α : Type} (n : ℕ) (l : List α) : List α := l.drop (l.length - n)

/-- One synthetic 1H candle from a chunk of 3m candles (aggregateTo1H body,
src/constants.ts lines 93-106): open of the first, close/ts of the last,
max high, min low, summed volume; empty chunks are skipped. -/
def mk1H : List Candle → Option Candle
  | [] => none
  | c0 :: rest =>
    let lastC := (c0 :: rest).getLast (List.cons_ne_nil c0 rest)
    some { ts := lastC.ts, o := c0.o,
           h := (rest.map (·.h)).foldl max c0.h,
           l := (rest.map (·.l)).foldl min c0.l,
           c := lastC.c,
           vol := ((c0 :: rest).map (·.vol)).sum }

/-- The chunks visited by the for-loop of aggregateTo1H: slices
[0,20), [20,40), ... -/
def chunks20 (l : List Candle) : List (List Candle) :=
  (List.range ((l.length + 19) / 20)).map fun j => (l.drop (20 * j)).take 20

/-- aggregateTo1H from src/constants.ts (lines 91-108). -/
def aggregateTo1H (c3m : List Candle) : List Candle :=
  enrichCandlesWithEMA ((chunks20 c3m).filterMap mk1H)

/-- The virtual position snapshot handed to the analyzer per step
(src/constants.ts lines 269-278). -/
def mkPosView (lev price : ℚ) (p : BtPosition) : PosView :=
  { side := p.side, pos := (p.contracts : ℚ), avgPx := p.entryPrice,
    uplRat := (price - p.entryPrice) / p.entryPrice * sideSign p.side * lev }

/-- The per-step decision call of the embedded backtest (src/constants.ts
lines 260-280): candles1H = all1H[0..floor(i/20)] keeping the last 100,
candles3m = all3m[0..i] keeping the last 100, price = the candle close. -/
def btDecision (strat : Strat) (all3m all1H : List Candle) (i : ℕ) (cand : Candle)
    (st : BtState) : Act × ℚ :=
  let c1H := takeLast 100 (all1H.take (i / 20 + 1))
  let c3m := takeLast 100 (all3m.take (i + 1))
  analyzeCoinBt c1H c3m cand.c (st.position.map (mkPosView strat.leverage cand.c)) strat

/-- The candle loop of the embedded backtest (src/constants.ts lines
251-341): runs from the start index until the series ends or the candle
timestamp passes endTime; the decision is computed before the step acts. -/
def btLoop (strat : Strat) (ctVal : ℚ) (endTime : ℤ) (all3m all1H : List Candle) :
    List Candle → ℕ → BtState → BtState
  | [], _, st => st
  | cand :: rest, i, st =>
    if endTime < cand.ts then st
    else btLoop strat ctVal endTime all3m all1H rest (i + 1)
      (btStep strat.leverage strat.initialRisk ctVal cand
        (btDecision strat all3m all1H i cand st) st)

/-- The backtest endpoint core (src/constants.ts lines 218-352): enrich the
3m candles, aggregate to 1H, find the start index, replay. -/
def runBacktest (strat : Strat) (ctVal initBal : ℚ) (startTime endTime : ℤ)
    (raw3m : List Candle) : BtState :=
  let all3m := enrichCandlesWithEMA raw3m
  let all1H := aggregateTo1H all3m
  let si := all3m.findIdx fun cd => startTime ≤ cd.ts
  btLoop strat ctVal endTime all3m all1H (all3m.drop si) si
    { balance := initBal, position := none, trades := [], peak := initBal,
      maxDD := 0, lastDD := 0 }

/-- C3: in every backtest step with an open position, the intrabar stop
check runs before the decision's own CLOSE: a touched stop (low <= sl for
a long, high >= sl for a short) closes the position at the stop price —
not at the candle close — regardless of the decision's action, CLOSE
included; an untouched stop with a CLOSE decision fills at the candle
close; and the step evaluates the close phase before the entry and equity
phases. -/
theorem backtest_sl_priority (lev risk ctVal : ℚ) (cand : Candle) (dec : Act × ℚ)
    (st : BtState) (p : BtPosition) (hp : st.position = some p) :
    (((p.side = Side.long ∧ cand.l ≤ p.sl) ∨ (p.side = Side.short ∧ p.sl ≤ cand.h)) →
      (btClosePhase lev cand dec.1 st).position = none
      ∧ (btClosePhase lev cand dec.1 st).trades = st.trades ++
          [{ ttype := Act.CLOSE, price := p.sl, contracts := p.contracts,
             fee := p.margin * TAKER_FEE_RATE,
             profit := pnlCalc p p.sl lev - p.margin * TAKER_FEE_RATE }])
    ∧ (¬ ((p.side = Side.long ∧ cand.l ≤ p.sl) ∨ (p.side = Side.short ∧ p.sl ≤ cand.h)) →
        dec.1 = Act.CLOSE →
        (btClosePhase lev cand dec.1 st).position = none
        ∧ (btClosePhase lev cand dec.1 st).trades = st.trades ++
            [{ ttype := Act.CLOSE, price := cand.c, contracts := p.contracts,
               fee := p.margin * TAKER_FEE_RATE,
               profit := pnlCalc p cand.c lev - p.margin * TAKER_FEE_RATE }])
    ∧ btStep lev risk ctVal cand dec st =
        btEquityPhase lev cand (btOpenPhase lev risk ctVal cand dec
          (btClosePhase lev cand dec.1 st)) := by
  refine ⟨?_, ?_, rfl⟩
  · intro ht
    have hcond : (p.side = Side.long ∧ cand.l ≤ p.sl)
        ∨ ((p.side = Side.short ∧ p.sl ≤ cand.h) ∨ dec.1 = Act.CLOSE) := by tauto
    simp only [btClosePhase, hp, if_pos hcond, if_pos ht]
    exact ⟨trivial, trivial⟩
  · intro hnt hcl
    have hcond : (p.side = Side.long ∧ cand.l ≤ p.sl)
        ∨ ((p.side = Side.short ∧ p.sl ≤ cand.h) ∨ dec.1 = Act.CLOSE) := by tauto
    simp only [btClosePhase, hp, if_pos hcond, if_neg hnt]
    exact ⟨trivial, trivial⟩

/-- A long position with stop 95 used by the stop-priority witness. -/
def demoSlPos : BtPosition :=
  { side := Side.long, contracts := 1, entryPrice := 100, margin := 150, sl := 95 }

/-- A simulator state holding demoSlPos. -/
def demoSlState : BtState :=
  { balance := 1000, position := some demoSlPos, trades := [], peak := 1000,
    maxDD := 0, lastDD := 0 }

/-- C3 witness: a long with stop 95 on a candle with low 90 and a CLOSE
decision on the same candle is filled at the stop price 95, not at the
candle close. -/
theorem backtest_sl_priority_witness :
    (btClosePhase 20 (mkCandle 0 90) Act.CLOSE demoSlState).position = none
    ∧ (btClosePhase 20 (mkCandle 0 90) Act.CLOSE demoSlState).trades =
        demoSlState.trades ++
          [{ ttype := Act.CLOSE, price := demoSlPos.sl, contracts := demoSlPos.contracts,
             fee := demoSlPos.margin * TAKER_FEE_RATE,
             profit := pnlCalc demoSlPos demoSlPos.sl 20
               - demoSlPos.margin * TAKER_FEE_RATE }] :=
  (backtest_sl_priority 20 (15/100) 1 (mkCandle 0 90) (Act.CLOSE, 0) demoSlState
    demoSlPos rfl).1 (by decide)

/-- Sum of realized net profits over CLOSE trades. -/
def netProfitSum (ts : List BtTrade) : ℚ :=
  ((ts.filter (fun t => t.ttype = Act.CLOSE)).map (fun t => t.profit)).sum

/-- Sum of gross realized P&L over CLOSE trades (recorded profit plus exit
fee, reconstructing the pre-fee P&L). -/
def grossPnlSum (ts : List BtTrade) : ℚ :=
  ((ts.filter (fun t => t.ttype = Act.CLOSE)).map (fun t => t.profit + t.fee)).sum

/-- Sum of every fee on the trade list. -/
def feeSum (ts : List BtTrade) : ℚ := (ts.map (fun t => t.fee)).sum

/-- Sum of entry fees (the fees of BUY/SELL trades). -/
def entryFeeSum (ts : List BtTrade) : ℚ :=
  ((ts.filter (fun t => ¬ t.ttype = Act.CLOSE)).map (fun t => t.fee)).sum

theorem netProfitSum_append (l1 l2 : List BtTrade) :
    netProfitSum (l1 ++ l2) = netProfitSum l1 + netProfitSum l2 := by
  simp [netProfitSum, List.filter_append]

theorem entryFeeSum_append (l1 l2 : List BtTrade) :
    entryFeeSum (l1 ++ l2) = entryFeeSum l1 + entryFeeSum l2 := by
  simp [entryFeeSum, List.filter_append]

/-- Fees of the CLOSE trades. -/
def closeFeeSum (ts : List BtTrade) : ℚ :=
  ((ts.filter (fun t => t.ttype = Act.CLOSE)).map (fun t => t.fee)).sum

theorem grossPnlSum_eq (ts : List BtTrade) :
    grossPnlSum ts = netProfitSum ts + closeFeeSum ts := by
  induction ts with
  | nil => simp [grossPnlSum, netProfitSum, closeFeeSum]
  | cons t ts ih =>
    by_cases h : t.ttype = Act.CLOSE <;>
      simp [grossPnlSum, netProfitSum, closeFeeSum, List.filter_cons, h] at ih ⊢ <;>
      linarith

theorem feeSum_split (ts : List BtTrade) :
    feeSum ts = closeFeeSum ts + entryFeeSum ts := by
  induction ts with
  | nil => simp [feeSum, closeFeeSum, entryFeeSum]
  | cons t ts ih =>
    by_cases h : t.ttype = Act.CLOSE <;>
      simp [feeSum, closeFeeSum, entryFeeSum, List.filter_cons, h] at ih ⊢ <;>
      linarith

theorem sums_identity (ts : List BtTrade) :
    grossPnlSum ts - feeSum ts = netProfitSum ts - entryFeeSum ts := by
  have h1 := grossPnlSum_eq ts
  have h2 := feeSum_split ts
  linarith

/-- Balance-reconstruction invariant of the simulator. -/
def recon (initBal : ℚ) (st : BtState) : Prop :=
  st.balance = initBal + netProfitSum st.trades - entryFeeSum st.trades

theorem netProfitSum_close_mk (pr : ℚ) (ct : ℤ) (fe pf : ℚ) :
    netProfitSum
      [{ ttype := Act.CLOSE, price := pr, contracts := ct, fee := fe, profit := pf }] = pf := by
  simp [netProfitSum, List.filter_cons]

theorem entryFeeSum_close_mk (pr : ℚ) (ct : ℤ) (fe pf : ℚ) :
    entryFeeSum
      [{ ttype := Act.CLOSE, price := pr, contracts := ct, fee := fe, profit := pf }] = 0 := by
  simp [entryFeeSum, List.filter_cons]

theorem netProfitSum_entry_mk (a : Act) (ha : ¬ a = Act.CLOSE) (pr : ℚ) (ct : ℤ) (fe pf : ℚ) :
    netProfitSum
      [{ ttype := a, price := pr, contracts := ct, fee := fe, profit := pf }] = 0 := by
  simp [netProfitSum, List.filter_cons, ha]

theorem entryFeeSum_entry_mk (a : Act) (ha : ¬ a = Act.CLOSE) (pr : ℚ) (ct : ℤ) (fe pf : ℚ) :
    entryFeeSum
      [{ ttype := a, price := pr, contracts := ct, fee := fe, profit := pf }] = fe := by
  simp [entryFeeSum, List.filter_cons, ha]

theorem btClosePhase_recon (lev : ℚ) (cand : Candle) (a : Act) (st : BtState)
    (i : ℚ) (h : recon i st) : recon i (btClosePhase lev cand a st) := by
  cases hp : st.position with
  | none => simpa [btClosePhase, hp] using h
  | some p =>
    simp only [btClosePhase, hp]
    split
    · unfold recon at h ⊢
      simp only [netProfitSum_append, entryFeeSum_append, netProfitSum_close_mk,
        entryFeeSum_close_mk]
      linarith [h]
    · exact h

theorem btOpenPhase_recon (lev risk ctVal : ℚ) (cand : Candle) (dec : Act × ℚ)
    (st : BtState) (i : ℚ) (h : recon i st) :
    recon i (btOpenPhase lev risk ctVal cand dec st) := by
  unfold recon at h ⊢
  simp only [btOpenPhase]
  split
  · rename_i hc
    split
    · have hne : ¬ dec.1 = Act.CLOSE := by
        rcases hc.2 with h1 | h1 <;> rw [h1] <;> exact fun he => Act.noConfusion he
      simp only [netProfitSum_append, entryFeeSum_append,
        netProfitSum_entry_mk dec.1 hne, entryFeeSum_entry_mk dec.1 hne]
      linarith [h]
    · exact h
  · exact h

theorem btEquityPhase_recon (lev : ℚ) (cand : Candle) (st : BtState)
    (i : ℚ) (h : recon i st) : recon i (btEquityPhase lev cand st) := h

theorem btStep_recon (lev risk ctVal : ℚ) (cand : Candle) (dec : Act × ℚ)
    (st : BtState) (i : ℚ) (h : recon i st) :
    recon i (btStep lev risk ctVal cand dec st) :=
  btEquityPhase_recon lev cand _ i
    (btOpenPhase_recon lev risk ctVal cand dec _ i
      (btClosePhase_recon lev cand dec.1 st i h))

theorem btLoop_recon (strat : Strat) (ctVal : ℚ) (endTime : ℤ)
    (all3m all1H : List Candle) (i0 : ℚ) :
    ∀ (l : List Candle) (i : ℕ) (st : BtState), recon i0 st →
      recon i0 (btLoop strat ctVal endTime all3m all1H l i st) := by
  intro l
  induction l with
  | nil => intro i st h; exact h
  | cons cand rest ih =>
    intro i st h
    simp only [btLoop]
    split
    · exact h
    · exact ih (i + 1) _ (btStep_recon _ _ _ _ _ _ i0 h)

/-- C4: for every backtest run the final cash balance equals the initial
balance plus the realized P&L of all closed trades minus all fees paid —
equivalently initial + (recorded net profits of CLOSE trades) - (entry
fees), or initial + (gross P&L of CLOSE trades) - (all fees); either way
finalBalance is exactly reconstructible from the trade list. -/
theorem backtest_balance_reconstruction (strat : Strat) (ctVal initBal : ℚ)
    (startTime endTime : ℤ) (raw3m : List Candle) :
    (runBacktest strat ctVal initBal startTime endTime raw3m).balance
      = initBal
        + netProfitSum (runBacktest strat ctVal initBal startTime endTime raw3m).trades
        - entryFeeSum (runBacktest strat ctVal initBal startTime endTime raw3m).trades
    ∧ (runBacktest strat ctVal initBal startTime endTime raw3m).balance
      = initBal
        + grossPnlSum (runBacktest strat ctVal initBal startTime endTime raw3m).trades
        - feeSum (runBacktest strat ctVal initBal startTime endTime raw3m).trades := by
  have h : recon initBal (runBacktest strat ctVal initBal startTime endTime raw3m) := by
    simp only [runBacktest]
    apply btLoop_recon
    simp [recon, netProfitSum, entryFeeSum]
  have hid := sums_identity (runBacktest strat ctVal initBal startTime endTime raw3m).trades
  unfold recon at h
  exact ⟨h, by linarith [h, hid]⟩

theorem btClosePhase_peak (lev : ℚ) (cand : Candle) (a : Act) (st : BtState) :
    (btClosePhase lev cand a st).peak = st.peak := by
  cases hp : st.position with
  | none => simp [btClosePhase, hp]
  | some p =>
    simp only [btClosePhase, hp]
    split <;> rfl

theorem btOpenPhase_peak (lev risk ctVal : ℚ) (cand : Candle) (dec : Act × ℚ)
    (st : BtState) : (btOpenPhase lev risk ctVal cand dec st).peak = st.peak := by
  simp only [btOpenPhase]
  split
  · split <;> rfl
  · rfl

theorem btClosePhase_maxDD (lev : ℚ) (cand : Candle) (a : Act) (st : BtState) :
    (btClosePhase lev cand a st).maxDD = st.maxDD := by
  cases hp : st.position with
  | none => simp [btClosePhase, hp]
  | some p =>
    simp only [btClosePhase, hp]
    split <;> rfl

theorem btOpenPhase_maxDD (lev risk ctVal : ℚ) (cand : Candle) (dec : Act × ℚ)
    (st : BtState) : (btOpenPhase lev risk ctVal cand dec st).maxDD = st.maxDD := by
  simp only [btOpenPhase]
  split
  · split <;> rfl
  · rfl

/-- C5 amended: in every backtest step the tracked peak equity is
non-decreasing, the recorded drawdown is at least 0, maxDrawdown is the
running max of the recorded drawdowns, and the recorded drawdown is at
most 1 whenever the step's mark-to-market equity is non-negative; a step
whose equity goes negative records a drawdown above 1, so the [0,1] upper
bound of the original claim only holds on runs with non-negative equity. -/
theorem backtest_drawdown_amended (lev risk ctVal : ℚ) (cand : Candle)
    (dec : Act × ℚ) (st : BtState) :
    st.peak ≤ (btStep lev risk ctVal cand dec st).peak
    ∧ 0 ≤ (btStep lev risk ctVal cand dec st).lastDD
    ∧ (btStep lev risk ctVal cand dec st).maxDD
        = max st.maxDD (btStep lev risk ctVal cand dec st).lastDD
    ∧ (0 ≤ btMark lev cand.c
          (btOpenPhase lev risk ctVal cand dec (btClosePhase lev cand dec.1 st)) →
        (btStep lev risk ctVal cand dec st).lastDD ≤ 1) := by
  have hpeak2 : (btOpenPhase lev risk ctVal cand dec
      (btClosePhase lev cand dec.1 st)).peak = st.peak := by
    rw [btOpenPhase_peak, btClosePhase_peak]
  have hmax : (btOpenPhase lev risk ctVal cand dec
      (btClosePhase lev cand dec.1 st)).maxDD = st.maxDD := by
    rw [btOpenPhase_maxDD, btClosePhase_maxDD]
  constructor
  · show st.peak ≤ max _ _
    rw [hpeak2]
    exact le_max_left _ _
  refine ⟨?_, ?_, ?_⟩
  · show (0 : ℚ) ≤ (if 0 < max _ _ then _ else 0)
    split
    · rename_i hpk
      apply div_nonneg _ (le_of_lt hpk)
      exact sub_nonneg.mpr (le_max_right _ _)
    · exact le_refl 0
  · simp only [btStep, btEquityPhase]
    rw [hmax]
  · intro heq
    show (if 0 < max _ _ then _ else 0) ≤ 1
    split
    · rename_i hpk
      rw [div_le_one hpk]
      linarith [heq]
    · norm_num

/-- C5 witness for the amended theorem: a flat step on a flat candle keeps
the peak, records drawdown 0, and satisfies the conditional upper bound. -/
theorem backtest_drawdown_amended_witness :
    (1000 : ℚ) ≤ (btStep 20 (15/100) 1 (mkCandle 0 100) (Act.HOLD, 0)
        { balance := 1000, position := none, trades := [], peak := 1000,
          maxDD := 0, lastDD := 0 }).peak
    ∧ (btStep 20 (15/100) 1 (mkCandle 0 100) (Act.HOLD, 0)
        { balance := 1000, position := none, trades := [], peak := 1000,
          maxDD := 0, lastDD := 0 }).lastDD ≤ 1 := by
  have h := backtest_drawdown_amended 20 (15/100) 1 (mkCandle 0 100) (Act.HOLD, 0)
    { balance := 1000, position := none, trades := [], peak := 1000,
      maxDD := 0, lastDD := 0 }
  exact ⟨h.1, h.2.2.2 (by decide)⟩

/-- Strategy with initialStopLossRoi/leverage = 2, placing the long's stop
at a negative price so no candle can touch it. -/
def cexStrat : Strat :=
  { leverage := 20, initialRisk := 15/100, beTriggerRoi := 78/1000,
    initialStopLossRoi := 40 }

/-- Candle series for the drawdown counterexample: prices rise 100..139 (a BUY
fires at index 20 once two aggregated 1H bars exist), then the final bar
crashes to 1. -/
def cexCandles : List Candle :=
  (List.range 40).map (fun i => mkCandle i (100 + i)) ++ [mkCandle 40 1]

/-- C5 counterexample: a complete backtest run (initial balance 1000,
ctVal 1, full time range) in which the crash candle closes the leveraged
long at its collapsed close price, equity goes negative, and the recorded
maxDrawdown exceeds 1 — refuting drawdown ∈ [0,1]. -/
theorem backtest_drawdown_counterexample :
    1 < (runBacktest cexStrat 1 1000 0 1000000 cexCandles).maxDD := by decide
